import Mathlib

/-!
Verification of the arithmetic-estimate search program (`ArithmeticEstimator.py`).

The program is embedded shallowly over `ℚ`:

* numeric values are rationals (the reference uses floating point; all claims
  proved here hold exactly over `ℚ`, which is stronger than the stated
  `1e-9` tolerance);
* rendered expression strings are lists of tokens (`Tok`), where a numeric
  literal is a single atomic token carrying its value;
* "evaluating a rendered string under standard arithmetic operator
  precedence" is formalised by a recursive-descent evaluator
  (grammar `E → T ((+|-) T)*`, `T → F ((*|/) F)*`, `F → number | (E)`,
  left-associative, division by zero undefined), see `parseLevel` /
  `eval_toks`;
* a Python exception (such as the `ZeroDivisionError` that `eval` raises
  inside `str_one_op`) is modelled by `Option`: `none` means the call raises.
-/

set_option maxRecDepth 100000

/-- The five operator tags `OPERATIONS_TO_USE = ['+', '-', '*', '/', '\\']`:
add, absolute difference, multiply, divide (`a/b`), reverse divide (`b/a`). -/
inductive Op where
| add
| sub
| mul
| div
| rdiv
deriving DecidableEq, Repr

/-- `OPERATIONS_TO_USE = ['+', '-', '*', '/', '\\']` in source order. -/
def OPERATIONS_TO_USE : List Op := [Op.add, Op.sub, Op.mul, Op.div, Op.rdiv]

/-- `eval_one_op(a, b, o)` from the source: `a+b`, `abs(a-b)`, `a*b`,
`a/b if b != 0 else 0`, `b/a if a != 0 else 0`. -/
def eval_one_op (a b : ℚ) (o : Op) : ℚ :=
  match o with
  | Op.add => a + b
  | Op.sub => |a - b|
  | Op.mul => a * b
  | Op.div => if b ≠ 0 then a / b else 0
  | Op.rdiv => if a ≠ 0 then b / a else 0

/-- A reduction triple `[i, j, o]`: replace elements `i` and `j` (with `i < j`)
by the result of operation `o`. -/
structure Triple where
  i : ℕ
  j : ℕ
  o : Op
deriving DecidableEq, Repr

instance : Inhabited Triple := ⟨⟨0, 0, Op.add⟩⟩

/-- The inner loop body of `all_ops_sequence` for one value of `idx`:
`for i in range(idx): for j in range(idx): for o in OPERATIONS_TO_USE:
if i < j: triples.append([i, j, o])`. -/
def depth_triples (idx : ℕ) : List Triple :=
  (List.range idx).flatMap fun i =>
    (List.range idx).flatMap fun j =>
      OPERATIONS_TO_USE.flatMap fun o =>
        if i < j then [⟨i, j, o⟩] else []

/-- `all_ops_sequence(n)`: the per-depth triple lists for
`idx in range(n, 1, -1)`, i.e. for `idx = n, n-1, ..., 2`. -/
def all_ops_sequence (n : ℕ) : List (List Triple) :=
  ((List.range (n - 1)).map fun t => n - t).map depth_triples

/-- `itertools.product` over a list of lists: all selections, in
lexicographic order with the last coordinate varying fastest. -/
def list_product {α : Type} : List (List α) → List (List α)
  | [] => [[]]
  | l :: ls => l.flatMap fun a => (list_product ls).map fun tl => a :: tl

/-- One step of the reduction loop of `eval_ops_sequence`:
`r = eval_one_op(y[op[0]], y[op[1]], op[2]); y[op[0]] = r;
y[op[1]] = y[n-idx-1]`. -/
def array_step (n : ℕ) (y : List ℚ) (idx : ℕ) (op : Triple) : List ℚ :=
  let r := eval_one_op (y.getD op.i 0) (y.getD op.j 0) op.o
  let y1 := y.set op.i r
  y1.set op.j (y1.getD (n - idx - 1) 0)

/-- The loop of `eval_ops_sequence` over the remaining triples, carrying the
running step index `idx` (`for idx, op in enumerate(ops_sequence)`). -/
def eval_ops_go (n : ℕ) : List ℚ → ℕ → List Triple → List ℚ
  | y, _, [] => y
  | y, idx, op :: rest => eval_ops_go n (array_step n y idx op) (idx + 1) rest

/-- `eval_ops_sequence(x, ops_sequence)`: run the reduction on a copy of `x`
and return `y[0]`. -/
def eval_ops_sequence (x : List ℚ) (ops : List Triple) : ℚ :=
  (eval_ops_go x.length x 0 ops).getD 0 0

/-- One step of the source loop raises no division-by-zero fallback:
`op` applied to `y` has a nonzero divisor (trivially true for the
non-division operators). -/
def div_ok (y : List ℚ) (op : Triple) : Bool :=
  match op.o with
  | Op.div => decide (y.getD op.j 0 ≠ 0)
  | Op.rdiv => decide (y.getD op.i 0 ≠ 0)
  | _ => true

/-- No division by zero happens anywhere while evaluating the sequence
(stepping exactly like `eval_ops_go`). -/
def no_div_zero_go (n : ℕ) : List ℚ → ℕ → List Triple → Bool
  | _, _, [] => true
  | y, idx, op :: rest =>
      div_ok y op && no_div_zero_go n (array_step n y idx op) (idx + 1) rest

/-- No division by zero happens while evaluating `ops` on `x`. -/
def no_div_zero (x : List ℚ) (ops : List Triple) : Bool :=
  no_div_zero_go x.length x 0 ops

/-- A valid reduction sequence for an `n`-element array: `n - 1` triples, the
`p`-th applying to the live prefix of length `n - p`, so `i < j < n - p`. -/
def valid_ops (n : ℕ) (ops : List Triple) : Prop :=
  ops.length = n - 1 ∧
    ∀ p, p < ops.length →
      (ops.getD p default).i < (ops.getD p default).j ∧
        (ops.getD p default).j < n - p

instance (n : ℕ) (ops : List Triple) : Decidable (valid_ops n ops) := by
  unfold valid_ops; infer_instance

/-- Tokens of a rendered expression string.  A numeric literal is one atomic
token carrying its value (Python renders `str(x)` and `eval` reads it back). -/
inductive Tok where
| num (q : ℚ)
| add
| sub
| mul
| div
| lp
| rp
deriving DecidableEq, Repr

/-- Level markers of the standard-precedence recursive-descent evaluator. -/
inductive PMode where
| factM
| tloopM
| termM
| eloopM
| exprM
deriving DecidableEq, Repr

/-- Fueled recursive-descent evaluation of a token string under standard
arithmetic precedence.  `factM` parses a number or a parenthesised
expression; `termM` parses a factor then `tloopM` folds `*` and `/`
left-associatively (division by zero fails); `exprM` parses a term then
`eloopM` folds `+` and `-` left-associatively.  The `ℚ` argument is the
left-fold accumulator (only used by the loop modes).  Returns the value and
the unconsumed suffix, or `none` on malformed input, exhausted fuel, or
division by zero. -/
def parseLevel : ℕ → PMode → ℚ → List Tok → Option (ℚ × List Tok)
  | 0, _, _, _ => none
  | _ + 1, PMode.factM, _, Tok.num q :: r => some (q, r)
  | f + 1, PMode.factM, _, Tok.lp :: r =>
      match parseLevel f PMode.exprM 0 r with
      | some (v, Tok.rp :: r2) => some (v, r2)
      | _ => none
  | _ + 1, PMode.factM, _, _ => none
  | f + 1, PMode.tloopM, a, Tok.mul :: r =>
      match parseLevel f PMode.factM 0 r with
      | some (w, r2) => parseLevel f PMode.tloopM (a * w) r2
      | none => none
  | f + 1, PMode.tloopM, a, Tok.div :: r =>
      match parseLevel f PMode.factM 0 r with
      | some (w, r2) => if w = 0 then none else parseLevel f PMode.tloopM (a / w) r2
      | none => none
  | _ + 1, PMode.tloopM, a, r => some (a, r)
  | f + 1, PMode.termM, _, s =>
      match parseLevel f PMode.factM 0 s with
      | some (w, r) => parseLevel f PMode.tloopM w r
      | none => none
  | f + 1, PMode.eloopM, a, Tok.add :: r =>
      match parseLevel f PMode.termM 0 r with
      | some (w, r2) => parseLevel f PMode.eloopM (a + w) r2
      | none => none
  | f + 1, PMode.eloopM, a, Tok.sub :: r =>
      match parseLevel f PMode.termM 0 r with
      | some (w, r2) => parseLevel f PMode.eloopM (a - w) r2
      | none => none
  | _ + 1, PMode.eloopM, a, r => some (a, r)
  | f + 1, PMode.exprM, _, s =>
      match parseLevel f PMode.termM 0 s with
      | some (w, r) => parseLevel f PMode.eloopM w r
      | none => none

/-- Evaluate a whole token string under standard arithmetic precedence
(the formal counterpart of Python's `eval` on the rendered string):
`some v` if the full string is a well-formed arithmetic expression with
value `v` and no division by zero, otherwise `none`. -/
def eval_toks (s : List Tok) : Option ℚ :=
  match parseLevel (4 * s.length + 3) PMode.exprM 0 s with
  | some (v, []) => some v
  | _ => none

/-- `add_parenthesis(x, symbols=['+','-'])`: wrap `x` in parentheses iff it
contains one of the given symbols. -/
def add_parenthesis (x : List Tok) (symbols : List Tok := [Tok.add, Tok.sub]) : List Tok :=
  if symbols.any fun s => decide (s ∈ x) then Tok.lp :: x ++ [Tok.rp] else x

/-- `str_one_op(a, b, o)`.  The `'-'` branch evaluates both operand strings
(Python `eval`) to decide the subtraction order; `none` models the exception
that `eval` raises when an operand contains a division by zero. -/
def str_one_op (a b : List Tok) (o : Op) : Option (List Tok) :=
  match o with
  | Op.add => some (a ++ Tok.add :: b)
  | Op.sub =>
      match eval_toks a, eval_toks b with
      | some va, some vb =>
          some (if va - vb > 0 then a ++ Tok.sub :: add_parenthesis b
                else b ++ Tok.sub :: add_parenthesis a)
      | _, _ => none
  | Op.mul => some (add_parenthesis a ++ Tok.mul :: add_parenthesis b)
  | Op.div =>
      some (add_parenthesis a ++
        Tok.div :: add_parenthesis b [Tok.add, Tok.sub, Tok.mul, Tok.div])
  | Op.rdiv =>
      some (add_parenthesis b ++
        Tok.div :: add_parenthesis a [Tok.add, Tok.sub, Tok.mul, Tok.div])

/-- The loop of `str_ops_sequence`, carrying `len_y` (which starts at `n` and
decreases by one per step): `y[op[0]] = r; y[op[1]] = y[len_y-1]; len_y -= 1`. -/
def str_ops_go : List (List Tok) → ℕ → List Triple → Option (List (List Tok))
  | y, _, [] => some y
  | y, len_y, op :: rest =>
      match str_one_op (y.getD op.i []) (y.getD op.j []) op.o with
      | none => none
      | some r =>
          let y1 := y.set op.i r
          let y2 := y1.set op.j (y1.getD (len_y - 1) [])
          str_ops_go y2 (len_y - 1) rest

/-- `str_ops_sequence(x, ops)`: render the reduction symbolically starting
from the literal strings of the inputs, returning `y[0]`; `none` models the
`ZeroDivisionError` that the `'-'` branch of `str_one_op` may raise. -/
def str_ops_sequence (x : List ℚ) (ops : List Triple) : Option (List Tok) :=
  (str_ops_go (x.map fun q => [Tok.num q]) x.length ops).map fun y => y.getD 0 []

/-- The candidate sequences enumerated by `find_best_estimates`:
`itertools.product(*all_ops_sequence(n))` in enumeration order. -/
def enumerated_candidates (x : List ℚ) : List (List Triple) :=
  list_product (all_ops_sequence x.length)

/-- The main loop of `find_best_estimates` over the remaining candidates,
carrying `best_est` and the `solutions` accumulator.  A candidate within
tolerance is rendered and appended (and the loop breaks unless
`find_all_solutions`); otherwise, a candidate improving or tying the
best-so-far error is rendered for progress reporting (`str_ops` at line 120
of the source, executed regardless of `print_progress`).  `none` models an
uncaught exception from `str_ops_sequence`. -/
def search_go (x : List ℚ) (target epsilon : ℚ) (find_all : Bool) :
    ℚ → List (List Tok) → List (List Triple) → Option (List (List Tok))
  | _, sols, [] => some sols
  | best_est, sols, ops :: rest =>
      let est := eval_ops_sequence x ops
      if |est - target| ≤ epsilon then
        match str_ops_sequence x ops with
        | none => none
        | some s =>
            if !find_all then some (sols ++ [s])
            else search_go x target epsilon find_all est (sols ++ [s]) rest
      else
        if best_est < 0 ∨ |est - target| ≤ |best_est - target| then
          match str_ops_sequence x ops with
          | none => none
          | some _ => search_go x target epsilon find_all est sols rest
        else
          search_go x target epsilon find_all best_est sols rest

/-- `find_best_estimates(x, target, epsilon, find_all_solutions)`: enumerate
all candidate sequences, starting from `best_est = -1` and an empty solution
list.  `some sols` is the returned solution list; `none` means the call
raises an exception. -/
def find_best_estimates (x : List ℚ) (target epsilon : ℚ)
    (find_all_solutions : Bool) : Option (List (List Tok)) :=
  search_go x target epsilon find_all_solutions (-1) [] (enumerated_candidates x)

/-- The tolerance-qualifying candidates, in enumeration order. -/
def qualifying (x : List ℚ) (target epsilon : ℚ) : List (List Triple) :=
  (enumerated_candidates x).filter fun ops =>
    decide (|eval_ops_sequence x ops - target| ≤ epsilon)

-- Sanity checks of the embedding against hand-traced runs of the source.

example : eval_ops_sequence [5, 1, 0] [⟨1, 2, Op.div⟩, ⟨0, 1, Op.sub⟩] = 5 := by
  with_unfolding_all decide

example : str_ops_sequence [5, 1, 0] [⟨1, 2, Op.div⟩, ⟨0, 1, Op.add⟩] =
    some [Tok.num 5, Tok.add, Tok.num 1, Tok.div, Tok.num 0] := by
  with_unfolding_all decide

example : str_ops_sequence [5, 1, 0] [⟨1, 2, Op.div⟩, ⟨0, 1, Op.sub⟩] = none := by
  with_unfolding_all decide

example : str_ops_sequence [5, 1, 0] [⟨0, 2, Op.add⟩, ⟨0, 1, Op.mul⟩] =
    some [Tok.lp, Tok.num 5, Tok.add, Tok.num 0, Tok.rp, Tok.mul, Tok.num 1] := by
  with_unfolding_all decide

example : eval_toks [Tok.lp, Tok.num 5, Tok.add, Tok.num 0, Tok.rp, Tok.mul, Tok.num 1] =
    some 5 := by with_unfolding_all decide

example : eval_toks [Tok.num 1, Tok.div, Tok.num 0] = none := by
  with_unfolding_all decide

example : (all_ops_sequence 3).length = 2 ∧ (depth_triples 2).length = 5 ∧
    (depth_triples 3).length = 15 := by with_unfolding_all decide

example : find_best_estimates [2, 2] 5 0 true = some [] := by
  with_unfolding_all decide

/-! ### The grammar of rendered expression strings

`G` is an inductive characterisation of well-formed token strings together
with their value, mirroring the grammar implemented by `parseLevel`:
`factK` strings are factors, `termK` strings are products/quotients,
`exprK` strings are sums/differences; `ttailK`/`etailK` are the
left-associative loop tails, relating the loop accumulator at entry (first
index) to the value at exit (second index).  For the non-tail kinds the
first index is unused and fixed to `0`. -/

/-- Kinds of grammar fragments (see `G`). -/
inductive GK where
| factK
| termK
| exprK
| ttailK
| etailK
deriving DecidableEq, Repr

/-- `G k a b s`: the token string `s` is a well-formed fragment of kind `k`.
For `factK`/`termK`/`exprK`, `b` is its value (and `a = 0` is unused);
for `ttailK`/`etailK`, a loop entered with accumulator `a` exits with
value `b` after consuming `s`.  Division fragments carry a nonzero-divisor
side condition, matching the evaluator. -/
inductive G : GK → ℚ → ℚ → List Tok → Prop
| num (q : ℚ) : G GK.factK 0 q [Tok.num q]
| paren {v : ℚ} {s : List Tok} :
    G GK.exprK 0 v s → G GK.factK 0 v (Tok.lp :: s ++ [Tok.rp])
| tnil (a : ℚ) : G GK.ttailK a a []
| tmul {w : ℚ} {s : List Tok} {a b : ℚ} {t : List Tok} :
    G GK.factK 0 w s → G GK.ttailK (a * w) b t →
    G GK.ttailK a b (Tok.mul :: s ++ t)
| tdiv {w : ℚ} {s : List Tok} {a b : ℚ} {t : List Tok} :
    G GK.factK 0 w s → w ≠ 0 → G GK.ttailK (a / w) b t →
    G GK.ttailK a b (Tok.div :: s ++ t)
| term {w : ℚ} {s : List Tok} {v : ℚ} {t : List Tok} :
    G GK.factK 0 w s → G GK.ttailK w v t → G GK.termK 0 v (s ++ t)
| enil (a : ℚ) : G GK.etailK a a []
| eadd {w : ℚ} {s : List Tok} {a b : ℚ} {t : List Tok} :
    G GK.termK 0 w s → G GK.etailK (a + w) b t →
    G GK.etailK a b (Tok.add :: s ++ t)
| esub {w : ℚ} {s : List Tok} {a b : ℚ} {t : List Tok} :
    G GK.termK 0 w s → G GK.etailK (a - w) b t →
    G GK.etailK a b (Tok.sub :: s ++ t)
| expr {w : ℚ} {s : List Tok} {v : ℚ} {t : List Tok} :
    G GK.termK 0 w s → G GK.etailK w v t → G GK.exprK 0 v (s ++ t)

/-- The head of `r` does not continue a term-level loop (not `*` or `/`). -/
def stop_term : List Tok → Prop
  | Tok.mul :: _ => False
  | Tok.div :: _ => False
  | _ => True

/-- The head of `r` does not continue any operator loop. -/
def stop_expr : List Tok → Prop
  | Tok.add :: _ => False
  | Tok.sub :: _ => False
  | Tok.mul :: _ => False
  | Tok.div :: _ => False
  | _ => True

lemma stop_expr_term {r : List Tok} (h : stop_expr r) : stop_term r := by
  cases r with
  | nil => trivial
  | cons hd tl => cases hd <;> simp_all [stop_expr, stop_term]

lemma etail_stop {a b : ℚ} {t : List Tok} (h : G GK.etailK a b t) :
    ∀ r, stop_expr r → stop_term (t ++ r) := by
  cases h with
  | enil => intro r hr; simpa using stop_expr_term hr
  | eadd h1 h2 => intro r hr; trivial
  | esub h1 h2 => intro r hr; trivial

/-- What `G` guarantees about the evaluator, one statement per kind: a
fragment of kind `k`, followed by any suffix the corresponding level does
not consume, parses to exactly its value, for every sufficient fuel. -/
def GMotive : GK → ℚ → ℚ → List Tok → Prop
  | GK.factK, _, v, s => ∀ f r, 4 * s.length + 1 ≤ f →
      parseLevel f PMode.factM 0 (s ++ r) = some (v, r)
  | GK.ttailK, a, b, t => ∀ f r, 4 * t.length + 1 ≤ f → stop_term r →
      parseLevel f PMode.tloopM a (t ++ r) = some (b, r)
  | GK.termK, _, v, s => ∀ f r, 4 * s.length + 2 ≤ f → stop_term r →
      parseLevel f PMode.termM 0 (s ++ r) = some (v, r)
  | GK.etailK, a, b, t => ∀ f r, 4 * t.length + 2 ≤ f → stop_expr r →
      parseLevel f PMode.eloopM a (t ++ r) = some (b, r)
  | GK.exprK, _, v, s => ∀ f r, 4 * s.length + 3 ≤ f → stop_expr r →
      parseLevel f PMode.exprM 0 (s ++ r) = some (v, r)

/-- Correctness of the standard-precedence evaluator on grammatical
strings: every `G`-derivable fragment parses to its `G`-value. -/
theorem G_parse {k : GK} {a b : ℚ} {s : List Tok} (h : G k a b s) :
    GMotive k a b s := by
  induction h with
  | num q =>
      simp only [GMotive]
      intro f r hf
      obtain ⟨g, rfl⟩ : ∃ g, f = g + 1 := ⟨f - 1, by omega⟩
      simp [parseLevel]
  | @paren v3 s3 h ih =>
      simp only [GMotive] at ih ⊢
      intro f r hf
      simp only [List.length_cons, List.length_append, List.length_singleton] at hf
      obtain ⟨g, rfl⟩ : ∃ g, f = g + 1 := ⟨f - 1, by omega⟩
      have harr : (Tok.lp :: s3 ++ [Tok.rp]) ++ r = Tok.lp :: (s3 ++ (Tok.rp :: r)) := by
        simp
      rw [harr]
      simp only [parseLevel]
      have e1 := ih g (Tok.rp :: r) (by omega) trivial
      simp only [e1]
  | tnil a =>
      simp only [GMotive]
      intro f r hf hr
      obtain ⟨g, rfl⟩ : ∃ g, f = g + 1 := ⟨f - 1, by omega⟩
      simp only [List.nil_append]
      cases r with
      | nil => simp [parseLevel]
      | cons hd tl =>
          cases hd <;> simp_all [stop_term, parseLevel]
  | @tmul w3 s3 a3 b3 t3 h1 h2 ih1 ih2 =>
      simp only [GMotive] at ih1 ih2 ⊢
      intro f r hf hr
      simp only [List.length_cons, List.length_append] at hf
      obtain ⟨g, rfl⟩ : ∃ g, f = g + 1 := ⟨f - 1, by omega⟩
      have harr : (Tok.mul :: s3 ++ t3) ++ r = Tok.mul :: (s3 ++ (t3 ++ r)) := by simp
      rw [harr]
      simp only [parseLevel]
      have e1 := ih1 g (t3 ++ r) (by omega)
      have e2 := ih2 g r (by omega) hr
      simp only [e1, e2]
  | @tdiv w3 s3 a3 b3 t3 h1 hw h2 ih1 ih2 =>
      simp only [GMotive] at ih1 ih2 ⊢
      intro f r hf hr
      simp only [List.length_cons, List.length_append] at hf
      obtain ⟨g, rfl⟩ : ∃ g, f = g + 1 := ⟨f - 1, by omega⟩
      have harr : (Tok.div :: s3 ++ t3) ++ r = Tok.div :: (s3 ++ (t3 ++ r)) := by simp
      rw [harr]
      simp only [parseLevel]
      have e1 := ih1 g (t3 ++ r) (by omega)
      have e2 := ih2 g r (by omega) hr
      simp only [e1, if_neg hw, e2]
  | @term w3 s3 v3 t3 h1 h2 ih1 ih2 =>
      simp only [GMotive] at ih1 ih2 ⊢
      intro f r hf hr
      simp only [List.length_append] at hf
      obtain ⟨g, rfl⟩ : ∃ g, f = g + 1 := ⟨f - 1, by omega⟩
      rw [List.append_assoc]
      simp only [parseLevel]
      have e1 := ih1 g (t3 ++ r) (by omega)
      have e2 := ih2 g r (by omega) hr
      simp only [e1, e2]
  | enil a =>
      simp only [GMotive]
      intro f r hf hr
      obtain ⟨g, rfl⟩ : ∃ g, f = g + 1 := ⟨f - 1, by omega⟩
      simp only [List.nil_append]
      cases r with
      | nil => simp [parseLevel]
      | cons hd tl =>
          cases hd <;> simp_all [stop_expr, parseLevel]
  | @eadd w3 s3 a3 b3 t3 h1 h2 ih1 ih2 =>
      simp only [GMotive] at ih1 ih2 ⊢
      intro f r hf hr
      simp only [List.length_cons, List.length_append] at hf
      obtain ⟨g, rfl⟩ : ∃ g, f = g + 1 := ⟨f - 1, by omega⟩
      have harr : (Tok.add :: s3 ++ t3) ++ r = Tok.add :: (s3 ++ (t3 ++ r)) := by simp
      rw [harr]
      simp only [parseLevel]
      have e1 := ih1 g (t3 ++ r) (by omega) (etail_stop h2 r hr)
      have e2 := ih2 g r (by omega) hr
      simp only [e1, e2]
  | @esub w3 s3 a3 b3 t3 h1 h2 ih1 ih2 =>
      simp only [GMotive] at ih1 ih2 ⊢
      intro f r hf hr
      simp only [List.length_cons, List.length_append] at hf
      obtain ⟨g, rfl⟩ : ∃ g, f = g + 1 := ⟨f - 1, by omega⟩
      have harr : (Tok.sub :: s3 ++ t3) ++ r = Tok.sub :: (s3 ++ (t3 ++ r)) := by simp
      rw [harr]
      simp only [parseLevel]
      have e1 := ih1 g (t3 ++ r) (by omega) (etail_stop h2 r hr)
      have e2 := ih2 g r (by omega) hr
      simp only [e1, e2]
  | @expr w3 s3 v3 t3 h1 h2 ih1 ih2 =>
      simp only [GMotive] at ih1 ih2 ⊢
      intro f r hf hr
      simp only [List.length_append] at hf
      obtain ⟨g, rfl⟩ : ∃ g, f = g + 1 := ⟨f - 1, by omega⟩
      rw [List.append_assoc]
      simp only [parseLevel]
      have e1 := ih1 g (t3 ++ r) (by omega) (etail_stop h2 r hr)
      have e2 := ih2 g r (by omega) hr
      simp only [e1, e2]

/-- A grammatical expression string evaluates (under standard precedence)
to exactly its value. -/
lemma eval_toks_of_G {v : ℚ} {s : List Tok} (h : G GK.exprK 0 v s) :
    eval_toks s = some v := by
  have h2 := G_parse h (4 * s.length + 3) [] (by omega) trivial
  rw [List.append_nil] at h2
  simp [eval_toks, h2]

/-! ### Composition lemmas for building grammar derivations the way
`str_one_op` concatenates strings. -/

lemma G_expr_inv {v : ℚ} {s : List Tok} (h : G GK.exprK 0 v s) :
    ∃ w st tt, G GK.termK 0 w st ∧ G GK.etailK w v tt ∧ s = st ++ tt := by
  cases h with
  | expr h1 h2 => exact ⟨_, _, _, h1, h2, rfl⟩

lemma G_term_inv {v : ℚ} {s : List Tok} (h : G GK.termK 0 v s) :
    ∃ w sf tt, G GK.factK 0 w sf ∧ G GK.ttailK w v tt ∧ s = sf ++ tt := by
  cases h with
  | term h1 h2 => exact ⟨_, _, _, h1, h2, rfl⟩

/-- A term-loop tail still works after multiplying the entry and exit values
by a common factor on the left (left-associated folds distribute). -/
lemma G_ttail_shift {k : GK} {a b : ℚ} {t : List Tok} (h : G k a b t) (x : ℚ) :
    k = GK.ttailK → G GK.ttailK (x * a) (x * b) t := by
  induction h with
  | tnil a => intro _; exact G.tnil _
  | tmul h1 h2 ih1 ih2 =>
      intro _
      have h3 := ih2 rfl
      rw [← mul_assoc] at h3
      exact G.tmul h1 h3
  | tdiv h1 hw h2 ih1 ih2 =>
      intro _
      have h3 := ih2 rfl
      rw [← mul_div_assoc] at h3
      exact G.tdiv h1 hw h3
  | _ => intro hk; exact absurd hk (by decide)

/-- An expression-loop tail still works after adding a common value on the
left of the entry and exit values. -/
lemma G_etail_shift {k : GK} {a b : ℚ} {t : List Tok} (h : G k a b t) (x : ℚ) :
    k = GK.etailK → G GK.etailK (x + a) (x + b) t := by
  induction h with
  | enil a => intro _; exact G.enil _
  | eadd h1 h2 ih1 ih2 =>
      intro _
      have h3 := ih2 rfl
      rw [← add_assoc] at h3
      exact G.eadd h1 h3
  | esub h1 h2 ih1 ih2 =>
      intro _
      have h3 := ih2 rfl
      rw [← add_sub_assoc] at h3
      exact G.esub h1 h3
  | _ => intro hk; exact absurd hk (by decide)

lemma G_ttail_append {k : GK} {a b : ℚ} {t1 : List Tok} (h : G k a b t1) :
    k = GK.ttailK → ∀ {c : ℚ} {t2 : List Tok}, G GK.ttailK b c t2 →
      G GK.ttailK a c (t1 ++ t2) := by
  induction h with
  | tnil a => intro _ c t2 h2; simpa using h2
  | tmul h1 h2 ih1 ih2 =>
      intro _ c t2 hbc
      have h3 := G.tmul h1 (ih2 rfl hbc)
      simpa [List.append_assoc] using h3
  | tdiv h1 hw h2 ih1 ih2 =>
      intro _ c t2 hbc
      have h3 := G.tdiv h1 hw (ih2 rfl hbc)
      simpa [List.append_assoc] using h3
  | _ => intro hk; exact absurd hk (by decide)

lemma G_etail_append {k : GK} {a b : ℚ} {t1 : List Tok} (h : G k a b t1) :
    k = GK.etailK → ∀ {c : ℚ} {t2 : List Tok}, G GK.etailK b c t2 →
      G GK.etailK a c (t1 ++ t2) := by
  induction h with
  | enil a => intro _ c t2 h2; simpa using h2
  | eadd h1 h2 ih1 ih2 =>
      intro _ c t2 hbc
      have h3 := G.eadd h1 (ih2 rfl hbc)
      simpa [List.append_assoc] using h3
  | esub h1 h2 ih1 ih2 =>
      intro _ c t2 hbc
      have h3 := G.esub h1 (ih2 rfl hbc)
      simpa [List.append_assoc] using h3
  | _ => intro hk; exact absurd hk (by decide)

lemma G_fact_term {v : ℚ} {s : List Tok} (h : G GK.factK 0 v s) :
    G GK.termK 0 v s := by
  have h2 := G.term h (G.tnil v)
  simpa using h2

lemma G_term_expr {v : ℚ} {s : List Tok} (h : G GK.termK 0 v s) :
    G GK.exprK 0 v s := by
  have h2 := G.expr h (G.enil v)
  simpa using h2

/-- An expression string with no top-level-visible `+`/`-` token is a term
(the source tests bare token membership, so "visible" means anywhere). -/
lemma G_expr_term {v : ℚ} {s : List Tok} (h : G GK.exprK 0 v s)
    (h1 : Tok.add ∉ s) (h2 : Tok.sub ∉ s) : G GK.termK 0 v s := by
  obtain ⟨w, st, tt, h3, h4, rfl⟩ := G_expr_inv h
  cases h4 with
  | enil => simpa using h3
  | eadd h5 h6 => exact absurd (List.mem_append_right _ (List.mem_cons_self _ _)) h1
  | esub h5 h6 => exact absurd (List.mem_append_right _ (List.mem_cons_self _ _)) h2

/-- A term string with no `*`/`/` token is a factor. -/
lemma G_term_fact {v : ℚ} {s : List Tok} (h : G GK.termK 0 v s)
    (h1 : Tok.mul ∉ s) (h2 : Tok.div ∉ s) : G GK.factK 0 v s := by
  obtain ⟨w, sf, tt, h3, h4, rfl⟩ := G_term_inv h
  cases h4 with
  | tnil => simpa using h3
  | tmul h5 h6 => exact absurd (List.mem_append_right _ (List.mem_cons_self _ _)) h1
  | tdiv h5 hw h6 => exact absurd (List.mem_append_right _ (List.mem_cons_self _ _)) h2

/-- `add_parenthesis` with the default symbols turns any expression string
into a term string (parenthesising exactly when a `+`/`-` is present). -/
lemma add_parenthesis_term {v : ℚ} {s : List Tok} (h : G GK.exprK 0 v s) :
    G GK.termK 0 v (add_parenthesis s) := by
  rw [add_parenthesis]
  split
  · exact G_fact_term (G.paren h)
  · next hc =>
      simp [List.any_eq_true] at hc
      exact G_expr_term h hc.1 hc.2

/-- `add_parenthesis` with all four operator symbols turns any expression
string into a factor string. -/
lemma add_parenthesis_fact {v : ℚ} {s : List Tok} (h : G GK.exprK 0 v s) :
    G GK.factK 0 v (add_parenthesis s [Tok.add, Tok.sub, Tok.mul, Tok.div]) := by
  rw [add_parenthesis]
  split
  · exact G.paren h
  · next hc =>
      simp [List.any_eq_true] at hc
      exact G_term_fact (G_expr_term h hc.1 hc.2.1) hc.2.2.1 hc.2.2.2

lemma G_expr_add {va vb : ℚ} {sa sb : List Tok}
    (ha : G GK.exprK 0 va sa) (hb : G GK.exprK 0 vb sb) :
    G GK.exprK 0 (va + vb) (sa ++ Tok.add :: sb) := by
  obtain ⟨wa, sta, eta, h1, h2, rfl⟩ := G_expr_inv ha
  obtain ⟨wb, stb, etb, h3, h4, rfl⟩ := G_expr_inv hb
  have h5 : G GK.etailK (va + wb) (va + vb) etb := G_etail_shift h4 va rfl
  have h6 : G GK.etailK va (va + vb) (Tok.add :: stb ++ etb) := G.eadd h3 h5
  have h7 := G_etail_append h2 rfl h6
  have h8 := G.expr h1 h7
  simpa [List.append_assoc] using h8

lemma G_expr_sub_term {va vb : ℚ} {sa tb : List Tok}
    (ha : G GK.exprK 0 va sa) (hb : G GK.termK 0 vb tb) :
    G GK.exprK 0 (va - vb) (sa ++ Tok.sub :: tb) := by
  obtain ⟨wa, sta, eta, h1, h2, rfl⟩ := G_expr_inv ha
  have h5 : G GK.etailK (va - vb) (va - vb) ([] : List Tok) := G.enil _
  have h6 : G GK.etailK va (va - vb) (Tok.sub :: tb ++ []) := G.esub hb h5
  rw [List.append_nil] at h6
  have h7 := G_etail_append h2 rfl h6
  have h8 := G.expr h1 h7
  simpa [List.append_assoc] using h8

lemma G_term_mul_term {va vb : ℚ} {ta tb : List Tok}
    (ha : G GK.termK 0 va ta) (hb : G GK.termK 0 vb tb) :
    G GK.termK 0 (va * vb) (ta ++ Tok.mul :: tb) := by
  obtain ⟨wa, sfa, tta, h1, h2, rfl⟩ := G_term_inv ha
  obtain ⟨wb, sfb, ttb, h3, h4, rfl⟩ := G_term_inv hb
  have h5 : G GK.ttailK (va * wb) (va * vb) ttb := G_ttail_shift h4 va rfl
  have h6 : G GK.ttailK va (va * vb) (Tok.mul :: sfb ++ ttb) := G.tmul h3 h5
  have h7 := G_ttail_append h2 rfl h6
  have h8 := G.term h1 h7
  simpa [List.append_assoc] using h8

lemma G_term_div_fact {va vb : ℚ} {ta fb : List Tok}
    (ha : G GK.termK 0 va ta) (hb : G GK.factK 0 vb fb) (hvb : vb ≠ 0) :
    G GK.termK 0 (va / vb) (ta ++ Tok.div :: fb) := by
  obtain ⟨wa, sfa, tta, h1, h2, rfl⟩ := G_term_inv ha
  have h5 : G GK.ttailK (va / vb) (va / vb) ([] : List Tok) := G.tnil _
  have h6 : G GK.ttailK va (va / vb) (Tok.div :: fb ++ []) := G.tdiv hb hvb h5
  rw [List.append_nil] at h6
  have h7 := G_ttail_append h2 rfl h6
  have h8 := G.term h1 h7
  simpa [List.append_assoc] using h8

/-- `str_one_op` on grammatical operand strings with the operand values:
it never fails (given the divisor side conditions of the step) and produces
a grammatical expression string whose value is `eval_one_op` of the operands. -/
lemma str_one_op_spec {va vb : ℚ} {sa sb : List Tok} {o : Op}
    (ha : G GK.exprK 0 va sa) (hb : G GK.exprK 0 vb sb)
    (hdiv : o = Op.div → vb ≠ 0) (hrdiv : o = Op.rdiv → va ≠ 0) :
    ∃ rs, str_one_op sa sb o = some rs ∧
      G GK.exprK 0 (eval_one_op va vb o) rs := by
  cases o with
  | add =>
      refine ⟨_, rfl, ?_⟩
      simpa [eval_one_op] using G_expr_add ha hb
  | sub =>
      have ea := eval_toks_of_G ha
      have eb := eval_toks_of_G hb
      by_cases hc : va - vb > 0
      · refine ⟨sa ++ Tok.sub :: add_parenthesis sb, ?_, ?_⟩
        · simp only [str_one_op, ea, eb]
          rw [if_pos hc]
        · have h1 := G_expr_sub_term ha (add_parenthesis_term hb)
          have habs : eval_one_op va vb Op.sub = va - vb := by
            simp [eval_one_op, abs_of_pos hc]
          rw [habs]; exact h1
      · refine ⟨sb ++ Tok.sub :: add_parenthesis sa, ?_, ?_⟩
        · simp only [str_one_op, ea, eb]
          rw [if_neg hc]
        · have h1 := G_expr_sub_term hb (add_parenthesis_term ha)
          have habs : eval_one_op va vb Op.sub = vb - va := by
            have h2 : va - vb ≤ 0 := by linarith [not_lt.mp hc]
            simp [eval_one_op, abs_of_nonpos h2]
          rw [habs]; exact h1
  | mul =>
      refine ⟨_, rfl, ?_⟩
      simpa [eval_one_op] using
        G_term_expr (G_term_mul_term (add_parenthesis_term ha) (add_parenthesis_term hb))
  | div =>
      refine ⟨_, rfl, ?_⟩
      have h1 := G_term_expr
        (G_term_div_fact (add_parenthesis_term ha) (add_parenthesis_fact hb) (hdiv rfl))
      simpa [eval_one_op, if_pos (hdiv rfl)] using h1
  | rdiv =>
      refine ⟨_, rfl, ?_⟩
      have h1 := G_term_expr
        (G_term_div_fact (add_parenthesis_term hb) (add_parenthesis_fact ha) (hrdiv rfl))
      simpa [eval_one_op, if_pos (hrdiv rfl)] using h1

lemma getD_set_self {α : Type} (l : List α) (i : ℕ) (v d : α) (h : i < l.length) :
    (l.set i v).getD i d = v := by
  rw [List.getD_eq_getElem?_getD, List.getElem?_set_self h]
  rfl

lemma getD_set_other {α : Type} (l : List α) (i m : ℕ) (v d : α) (h : i ≠ m) :
    (l.set i v).getD m d = l.getD m d := by
  rw [List.getD_eq_getElem?_getD, List.getD_eq_getElem?_getD, List.getElem?_set_ne h]

/-- Main induction for the round-trip: if every live slot holds a
grammatical token string whose value is the slot's numeric value, then the
numeric loop (`eval_ops_go`) and the symbolic loop (`str_ops_go`) stay in
lockstep: the symbolic loop never fails and the invariant is preserved,
provided no division by zero occurs along the evaluation. -/
lemma roundtrip_go (n : ℕ) (ops : List Triple) (y : List ℚ)
    (ys : List (List Tok)) (idx : ℕ)
    (hy : y.length = n) (hys : ys.length = n)
    (hlen : idx + ops.length + 1 ≤ n)
    (hval : ∀ p, p < ops.length →
      (ops.getD p default).i < (ops.getD p default).j ∧
        (ops.getD p default).j < n - idx - p)
    (hinv : ∀ m, m < n - idx → G GK.exprK 0 (y.getD m 0) (ys.getD m []))
    (hdz : no_div_zero_go n y idx ops = true) :
    ∃ ysf, str_ops_go ys (n - idx) ops = some ysf ∧
      ∀ m, m < n - idx - ops.length →
        G GK.exprK 0 ((eval_ops_go n y idx ops).getD m 0) (ysf.getD m []) := by
  induction ops generalizing y ys idx with
  | nil =>
      refine ⟨ys, rfl, fun m hm => ?_⟩
      simp only [eval_ops_go]
      exact hinv m (by simpa using hm)
  | cons op rest ih =>
      simp only [List.length_cons] at hlen
      have h0 := hval 0 (by simp)
      simp only [List.getD_cons_zero] at h0
      have hij : op.i < op.j := h0.1
      have hjk : op.j < n - idx := by
        have := h0.2
        omega
      have hk2 : 2 ≤ n - idx := by omega
      simp only [no_div_zero_go, Bool.and_eq_true] at hdz
      obtain ⟨hdz1, hdz2⟩ := hdz
      have hdivc : op.o = Op.div → (y.getD op.j 0) ≠ 0 := by
        intro ho
        simpa [div_ok, ho] using hdz1
      have hrdivc : op.o = Op.rdiv → (y.getD op.i 0) ≠ 0 := by
        intro ho
        simpa [div_ok, ho] using hdz1
      have Gi := hinv op.i (by omega)
      have Gj := hinv op.j (by omega)
      obtain ⟨rs, hrs, hGrs⟩ := str_one_op_spec Gi Gj hdivc hrdivc
      have hy2 : array_step n y idx op =
          (y.set op.i (eval_one_op (y.getD op.i 0) (y.getD op.j 0) op.o)).set op.j
            ((y.set op.i (eval_one_op (y.getD op.i 0) (y.getD op.j 0) op.o)).getD
              (n - idx - 1) 0) := rfl
      have hy2n : (array_step n y idx op).length = n := by
        rw [hy2]
        simp [hy]
      have hys2n : ((ys.set op.i rs).set op.j
          ((ys.set op.i rs).getD (n - idx - 1) [])).length = n := by simp [hys]
      have hval2 : ∀ p, p < rest.length →
          (rest.getD p default).i < (rest.getD p default).j ∧
            (rest.getD p default).j < n - (idx + 1) - p := by
        intro p hp
        have h3 := hval (p + 1) (by simp; omega)
        simp only [List.getD_cons_succ] at h3
        refine ⟨h3.1, ?_⟩
        have h4 := h3.2
        omega
      have hinv2 : ∀ m, m < n - (idx + 1) →
          G GK.exprK 0 ((array_step n y idx op).getD m 0)
            (((ys.set op.i rs).set op.j
              ((ys.set op.i rs).getD (n - idx - 1) [])).getD m []) := by
        intro m hm
        rw [hy2]
        by_cases hmj : m = op.j
        · subst hmj
          have e1 : ((y.set op.i (eval_one_op (y.getD op.i 0) (y.getD op.j 0) op.o)).set op.j
              ((y.set op.i (eval_one_op (y.getD op.i 0) (y.getD op.j 0) op.o)).getD
                (n - idx - 1) 0)).getD op.j 0 =
              (y.set op.i (eval_one_op (y.getD op.i 0) (y.getD op.j 0) op.o)).getD
                (n - idx - 1) 0 :=
            getD_set_self _ _ _ _ (by simp only [List.length_set, hy]; omega)
          have e2 : (y.set op.i (eval_one_op (y.getD op.i 0) (y.getD op.j 0) op.o)).getD
              (n - idx - 1) 0 = y.getD (n - idx - 1) 0 :=
            getD_set_other _ _ _ _ _ (by omega)
          have e3 : ((ys.set op.i rs).set op.j
              ((ys.set op.i rs).getD (n - idx - 1) [])).getD op.j [] =
              (ys.set op.i rs).getD (n - idx - 1) [] :=
            getD_set_self _ _ _ _ (by simp only [List.length_set, hys]; omega)
          have e4 : (ys.set op.i rs).getD (n - idx - 1) [] = ys.getD (n - idx - 1) [] :=
            getD_set_other _ _ _ _ _ (by omega)
          rw [e1, e2, e3, e4]
          exact hinv (n - idx - 1) (by omega)
        · by_cases hmi : m = op.i
          · subst hmi
            have e1 : ((y.set op.i (eval_one_op (y.getD op.i 0) (y.getD op.j 0) op.o)).set op.j
                ((y.set op.i (eval_one_op (y.getD op.i 0) (y.getD op.j 0) op.o)).getD
                  (n - idx - 1) 0)).getD op.i 0 =
                (y.set op.i (eval_one_op (y.getD op.i 0) (y.getD op.j 0) op.o)).getD op.i 0 :=
              getD_set_other _ _ _ _ _ (by omega)
            have e2 : (y.set op.i (eval_one_op (y.getD op.i 0) (y.getD op.j 0) op.o)).getD
                op.i 0 = eval_one_op (y.getD op.i 0) (y.getD op.j 0) op.o :=
              getD_set_self _ _ _ _ (by simp only [hy]; omega)
            have e3 : ((ys.set op.i rs).set op.j
                ((ys.set op.i rs).getD (n - idx - 1) [])).getD op.i [] =
                (ys.set op.i rs).getD op.i [] :=
              getD_set_other _ _ _ _ _ (by omega)
            have e4 : (ys.set op.i rs).getD op.i [] = rs :=
              getD_set_self _ _ _ _ (by simp only [hys]; omega)
            rw [e1, e2, e3, e4]
            exact hGrs
          · have e1 : ((y.set op.i (eval_one_op (y.getD op.i 0) (y.getD op.j 0) op.o)).set op.j
                ((y.set op.i (eval_one_op (y.getD op.i 0) (y.getD op.j 0) op.o)).getD
                  (n - idx - 1) 0)).getD m 0 = y.getD m 0 := by
              rw [getD_set_other _ _ _ _ _ (by omega), getD_set_other _ _ _ _ _ (by omega)]
            have e2 : ((ys.set op.i rs).set op.j
                ((ys.set op.i rs).getD (n - idx - 1) [])).getD m [] = ys.getD m [] := by
              rw [getD_set_other _ _ _ _ _ (by omega), getD_set_other _ _ _ _ _ (by omega)]
            rw [e1, e2]
            exact hinv m (by omega)
      obtain ⟨ysf, hstr, hfin⟩ :=
        ih (array_step n y idx op)
          ((ys.set op.i rs).set op.j ((ys.set op.i rs).getD (n - idx - 1) []))
          (idx + 1) hy2n hys2n (by omega) hval2 hinv2 hdz2
      have e5 : n - (idx + 1) = n - idx - 1 := by omega
      rw [e5] at hstr
      refine ⟨ysf, ?_, ?_⟩
      · simp only [str_ops_go, hrs]
        exact hstr
      · intro m hm
        simp only [eval_ops_go]
        have hm2 : m < n - (idx + 1) - rest.length := by
          simp only [List.length_cons] at hm
          omega
        exact hfin m hm2

/-- C1, amended round trip.  Helper: top-level statement with explicit
hypotheses; the initial slots hold literal number tokens. -/
lemma round_trip_aux {x : List ℚ} {ops : List Triple}
    (hx : 1 ≤ x.length) (hv : valid_ops x.length ops)
    (hdz : no_div_zero x ops = true) :
    ∃ s, str_ops_sequence x ops = some s ∧
      eval_toks s = some (eval_ops_sequence x ops) := by
  obtain ⟨hlen, hval⟩ := hv
  have hinv0 : ∀ m, m < x.length - 0 →
      G GK.exprK 0 (x.getD m 0) ((x.map fun q => [Tok.num q]).getD m []) := by
    intro m hm
    have hm2 : m < x.length := by omega
    have e1 : (x.map fun q => [Tok.num q]).getD m [] = [Tok.num (x.getD m 0)] := by
      rw [List.getD_eq_getElem?_getD, List.getD_eq_getElem?_getD, List.getElem?_map,
        List.getElem?_eq_getElem hm2]
      rfl
    rw [e1]
    exact G_term_expr (G_fact_term (G.num (x.getD m 0)))
  have hval0 : ∀ p, p < ops.length →
      (ops.getD p default).i < (ops.getD p default).j ∧
        (ops.getD p default).j < x.length - 0 - p := by
    intro p hp
    exact hval p hp
  obtain ⟨ysf, hstr, hfin⟩ := roundtrip_go x.length ops x
    (x.map fun q => [Tok.num q]) 0 rfl (by simp) (by omega) hval0 hinv0 hdz
  have hstr2 : str_ops_go (x.map fun q => [Tok.num q]) x.length ops = some ysf := hstr
  refine ⟨ysf.getD 0 [], ?_, ?_⟩
  · rw [str_ops_sequence, hstr2]
    rfl
  · have h9 := hfin 0 (by omega)
    exact eval_toks_of_G h9

/-- First-solution mode: if the loop returns, it returns its accumulator
unchanged when no remaining candidate qualifies, and otherwise appends
exactly the rendering of the first qualifying candidate in order. -/
lemma search_go_false_spec (x : List ℚ) (t ε : ℚ) :
    ∀ (cands : List (List Triple)) (best : ℚ) (sols out : List (List Tok)),
      search_go x t ε false best sols cands = some out →
      (out = sols ∧
        cands.filter (fun ops => decide (|eval_ops_sequence x ops - t| ≤ ε)) = []) ∨
      (∃ q s,
        (cands.filter (fun ops => decide (|eval_ops_sequence x ops - t| ≤ ε))).head? =
          some q ∧
        str_ops_sequence x q = some s ∧ out = sols ++ [s]) := by
  intro cands
  induction cands with
  | nil =>
      intro best sols out h
      simp only [search_go, Option.some.injEq] at h
      exact Or.inl ⟨h.symm, rfl⟩
  | cons c rest ih =>
      intro best sols out h
      simp only [search_go] at h
      by_cases hq : |eval_ops_sequence x c - t| ≤ ε
      · rw [if_pos hq] at h
        cases hs : str_ops_sequence x c with
        | none => rw [hs] at h; simp at h
        | some s =>
            rw [hs] at h
            simp at h
            refine Or.inr ⟨c, s, ?_, hs, h.symm⟩
            simp [List.filter_cons, hq]
      · rw [if_neg hq] at h
        have hskip : (c :: rest).filter
            (fun ops => decide (|eval_ops_sequence x ops - t| ≤ ε)) =
            rest.filter (fun ops => decide (|eval_ops_sequence x ops - t| ≤ ε)) := by
          simp [List.filter_cons, hq]
        rw [hskip]
        by_cases hb : best < 0 ∨ |eval_ops_sequence x c - t| ≤ |best - t|
        · rw [if_pos hb] at h
          cases hs : str_ops_sequence x c with
          | none => rw [hs] at h; simp at h
          | some s2 =>
              rw [hs] at h
              exact ih _ _ _ h
        · rw [if_neg hb] at h
          exact ih _ _ _ h

/-- Collect-all mode: if the loop returns, the result is the accumulator
followed by the renderings of exactly the qualifying candidates, in
enumeration order. -/
lemma search_go_true_spec (x : List ℚ) (t ε : ℚ) :
    ∀ (cands : List (List Triple)) (best : ℚ) (sols out : List (List Tok)),
      search_go x t ε true best sols cands = some out →
      ∃ rs,
        (cands.filter (fun ops => decide (|eval_ops_sequence x ops - t| ≤ ε))).mapM
          (str_ops_sequence x) = some rs ∧ out = sols ++ rs := by
  intro cands
  induction cands with
  | nil =>
      intro best sols out h
      simp only [search_go, Option.some.injEq] at h
      exact ⟨[], by simp [List.mapM, List.mapM.loop], by simp [h.symm]⟩
  | cons c rest ih =>
      intro best sols out h
      simp only [search_go] at h
      by_cases hq : |eval_ops_sequence x c - t| ≤ ε
      · rw [if_pos hq] at h
        cases hs : str_ops_sequence x c with
        | none => rw [hs] at h; simp at h
        | some s =>
            rw [hs] at h
            simp only [Bool.not_true, Bool.false_eq_true, if_false] at h
            obtain ⟨rs2, hmap, hout⟩ := ih _ _ _ h
            refine ⟨s :: rs2, ?_, ?_⟩
            · rw [List.filter_cons, if_pos (by simpa using hq)]
              rw [List.mapM_cons, hs, hmap]
              rfl
            · rw [hout]
              simp
      · rw [if_neg hq] at h
        have hskip : (c :: rest).filter
            (fun ops => decide (|eval_ops_sequence x ops - t| ≤ ε)) =
            rest.filter (fun ops => decide (|eval_ops_sequence x ops - t| ≤ ε)) := by
          simp [List.filter_cons, hq]
        rw [hskip]
        by_cases hb : best < 0 ∨ |eval_ops_sequence x c - t| ≤ |best - t|
        · rw [if_pos hb] at h
          cases hs : str_ops_sequence x c with
          | none => rw [hs] at h; simp at h
          | some s2 =>
              rw [hs] at h
              exact ih _ _ _ h
        · rw [if_neg hb] at h
          exact ih _ _ _ h

/-! ### Counting the enumeration -/

lemma flatMap_congr {α β : Type} {l : List α} {f g : α → List β}
    (h : ∀ a ∈ l, f a = g a) : l.flatMap f = l.flatMap g := by
  induction l with
  | nil => rfl
  | cons a l ih =>
      simp only [List.flatMap_cons, h a (by simp)]
      rw [ih fun b hb => h b (by simp [hb])]

lemma flatMap_const_nil {α β : Type} (l : List α) :
    l.flatMap (fun _ => ([] : List β)) = [] := by
  induction l with
  | nil => rfl
  | cons a l ih => simp [List.flatMap_cons, ih]

lemma flatMap_singleton_map {α β : Type} (l : List α) (f : α → β) :
    l.flatMap (fun a => [f a]) = l.map f := by
  induction l with
  | nil => rfl
  | cons a l ih => simp [List.flatMap_cons, ih]

lemma length_flatMap_const {α β : Type} (l : List α) (f : α → List β) (c : ℕ)
    (h : ∀ a ∈ l, (f a).length = c) : (l.flatMap f).length = l.length * c := by
  induction l with
  | nil => simp
  | cons a l ih =>
      simp only [List.flatMap_cons, List.length_append, List.length_cons,
        h a (by simp), ih fun b hb => h b (by simp [hb])]
      ring

/-- The per-depth triple set in the order the spec describes: row-major by
`i`, then `j` over `i+1, ..., k-1`, then the fixed operator order.
(Defined from the spec's words, for comparison with `depth_triples`.) -/
def row_major_triples (k : ℕ) : List Triple :=
  (List.range k).flatMap fun i =>
    (List.range' (i + 1) (k - (i + 1))).flatMap fun j =>
      OPERATIONS_TO_USE.map fun o => ⟨i, j, o⟩

lemma depth_triples_eq_row_major (k : ℕ) :
    depth_triples k = row_major_triples k := by
  rw [depth_triples, row_major_triples]
  refine flatMap_congr fun i hi => ?_
  have hik : i < k := List.mem_range.mp hi
  have hsplit : List.range k =
      List.range' 0 (i + 1) ++ List.range' (i + 1) (k - (i + 1)) := by
    have h2 := List.range'_append 0 (i + 1) (k - (i + 1)) 1
    simp only [Nat.zero_add, Nat.one_mul] at h2
    rw [show k - (i + 1) + (i + 1) = k from by omega] at h2
    rw [List.range_eq_range', ← h2]
  rw [hsplit, List.flatMap_append]
  have hleft : (List.range' 0 (i + 1)).flatMap
      (fun j => OPERATIONS_TO_USE.flatMap fun o =>
        if i < j then [Triple.mk i j o] else []) = [] := by
    have h3 : ∀ j ∈ List.range' 0 (i + 1),
        (OPERATIONS_TO_USE.flatMap fun o =>
          if i < j then [Triple.mk i j o] else []) = ([] : List Triple) := by
      intro j hj
      have hji : j < i + 1 := by
        have h4 := List.mem_range'_1.mp hj
        omega
      have hnot : ¬ i < j := by omega
      simp only [if_neg hnot]
      exact flatMap_const_nil _
    rw [flatMap_congr h3]
    exact flatMap_const_nil _
  have hright : ∀ j ∈ List.range' (i + 1) (k - (i + 1)),
      (OPERATIONS_TO_USE.flatMap fun o => if i < j then [Triple.mk i j o] else []) =
        OPERATIONS_TO_USE.map fun o => Triple.mk i j o := by
    intro j hj
    have hji : i + 1 ≤ j := (List.mem_range'_1.mp hj).1
    have hij : i < j := by omega
    simp only [if_pos hij]
    exact flatMap_singleton_map _ _
  rw [flatMap_congr hright, hleft, List.nil_append]

lemma sum_list_range (f : ℕ → ℕ) (n : ℕ) :
    ((List.range n).map f).sum = ∑ i ∈ Finset.range n, f i := by
  induction n with
  | zero => simp
  | succ n ih =>
      rw [List.range_succ, List.map_append, List.sum_append, Finset.sum_range_succ, ih]
      simp

lemma sum_range_id_eq_choose (k : ℕ) : (∑ i ∈ Finset.range k, i) = k.choose 2 := by
  have h := Finset.sum_range_id_mul_two k
  rw [Nat.choose_two_right]
  omega

lemma depth_triples_length (k : ℕ) :
    (depth_triples k).length = Nat.choose k 2 * 5 := by
  rw [depth_triples_eq_row_major, row_major_triples]
  have h1 : ∀ i ∈ List.range k,
      ((List.range' (i + 1) (k - (i + 1))).flatMap fun j =>
        OPERATIONS_TO_USE.map fun o => Triple.mk i j o).length = (k - (i + 1)) * 5 := by
    intro i hi
    rw [length_flatMap_const _ _ 5 fun j hj => by simp [OPERATIONS_TO_USE]]
    rw [List.length_range']
  rw [List.length_flatMap]
  simp only [Function.comp_def]
  have h2 : ((List.range k).map fun i =>
      ((List.range' (i + 1) (k - (i + 1))).flatMap fun j =>
        OPERATIONS_TO_USE.map fun o => Triple.mk i j o).length) =
      (List.range k).map fun i => (k - (i + 1)) * 5 := by
    apply List.map_congr_left
    intro i hi
    exact h1 i hi
  rw [h2, sum_list_range]
  have h3 : (∑ i ∈ Finset.range k, (k - (i + 1)) * 5) =
      (∑ i ∈ Finset.range k, (k - 1 - i)) * 5 := by
    rw [Finset.sum_mul]
    refine Finset.sum_congr rfl fun i hi => ?_
    have : k - (i + 1) = k - 1 - i := by omega
    rw [this]
  rw [h3, Finset.sum_range_reflect (fun j => j) k, sum_range_id_eq_choose]

lemma list_product_length {α : Type} (ls : List (List α)) :
    (list_product ls).length = (ls.map List.length).prod := by
  induction ls with
  | nil => rfl
  | cons l ls ih =>
      rw [list_product]
      rw [length_flatMap_const _ _ (list_product ls).length fun a ha => by simp]
      rw [List.map_cons, List.prod_cons, ih]

lemma all_ops_sequence_succ (n : ℕ) (h : 1 ≤ n) :
    all_ops_sequence (n + 1) = depth_triples (n + 1) :: all_ops_sequence n := by
  rw [all_ops_sequence, all_ops_sequence]
  have e : (List.range n).map (fun t => (n + 1) - t) =
      (n + 1) :: (List.range (n - 1)).map (fun t => n - t) := by
    obtain ⟨m, rfl⟩ : ∃ m, n = m + 1 := ⟨n - 1, by omega⟩
    rw [List.range_succ_eq_map]
    rw [List.map_cons, List.map_map]
    congr 1
    refine List.map_congr_left fun t ht => ?_
    simp only [Function.comp_apply]
    omega
  rw [show n + 1 - 1 = n from by omega, e, List.map_cons]

lemma enumerated_length (n : ℕ) :
    (list_product (all_ops_sequence n)).length =
      ∏ k ∈ Finset.Icc 2 n, (Nat.choose k 2 * 5) := by
  induction n with
  | zero =>
      rw [show Finset.Icc 2 0 = ∅ from by rfl]
      simp [all_ops_sequence, list_product]
  | succ n ih =>
      by_cases h1 : 1 ≤ n
      · rw [all_ops_sequence_succ n h1, list_product]
        rw [length_flatMap_const _ _ (list_product (all_ops_sequence n)).length
          fun a ha => by simp]
        rw [ih, depth_triples_length]
        rw [Finset.prod_Icc_succ_top (by omega)]
        ring
      · have h0 : n = 0 := by omega
        subst h0
        rw [show Finset.Icc 2 1 = ∅ from by rfl]
        simp [all_ops_sequence, list_product]

/-! ### Membership and position facts for the generator -/

lemma op_mem_operations (o : Op) : o ∈ OPERATIONS_TO_USE := by
  cases o <;> simp [OPERATIONS_TO_USE]

lemma depth_triples_mem (k : ℕ) (tr : Triple) :
    tr ∈ depth_triples k ↔ (tr.i < tr.j ∧ tr.j < k) := by
  constructor
  · intro h
    simp only [depth_triples, List.mem_flatMap, List.mem_range] at h
    obtain ⟨i, hi, j, hj, o, ho, hmem⟩ := h
    by_cases hij : i < j
    · rw [if_pos hij] at hmem
      rw [List.mem_singleton] at hmem
      subst hmem
      exact ⟨hij, hj⟩
    · rw [if_neg hij] at hmem
      simp at hmem
  · rintro ⟨hij, hjk⟩
    simp only [depth_triples, List.mem_flatMap, List.mem_range]
    refine ⟨tr.i, by omega, tr.j, hjk, tr.o, op_mem_operations _, ?_⟩
    rw [if_pos hij]
    simp

lemma all_ops_sequence_getD (n pos : ℕ) (h : pos < n - 1) :
    (all_ops_sequence n).getD pos [] = depth_triples (n - pos) := by
  rw [all_ops_sequence, List.getD_eq_getElem?_getD, List.getElem?_map, List.getElem?_map,
    List.getElem?_range (by omega : pos < n - 1)]
  rfl

/-! ### A heap model for the Sequence Evaluator (for the frame property)

The caller's array lives at an address of a heap; `np.array(x)` allocates a
fresh address holding a copy; the loop writes only through that fresh
address. -/

/-- A heap of arrays: contents per address, plus the next fresh address. -/
structure Heap where
  mem : ℕ → List ℚ
  next : ℕ

/-- Overwrite the array at address `a`. -/
def heap_write (h : Heap) (a : ℕ) (v : List ℚ) : Heap :=
  ⟨fun b => if b = a then v else h.mem b, h.next⟩

/-- Allocate a fresh address holding (a copy of) `v`. -/
def heap_alloc (h : Heap) (v : List ℚ) : Heap × ℕ :=
  (⟨fun b => if b = h.next then v else h.mem b, h.next + 1⟩, h.next)

/-- The loop of `eval_ops_sequence`, performed through the heap on the
array at address `ay` (the two element assignments of each step are two
writes). -/
def eval_ops_heap_go (n : ℕ) : Heap → ℕ → ℕ → List Triple → Heap
  | h, _, _, [] => h
  | h, ay, idx, op :: rest =>
      let y := h.mem ay
      let r := eval_one_op (y.getD op.i 0) (y.getD op.j 0) op.o
      let h1 := heap_write h ay (y.set op.i r)
      let y1 := h1.mem ay
      let h2 := heap_write h1 ay (y1.set op.j (y1.getD (n - idx - 1) 0))
      eval_ops_heap_go n h2 ay (idx + 1) rest

/-- `eval_ops_sequence` as the source executes it: read the caller's array
at address `ax`, allocate the private copy (`np.array(x).astype(float)`),
run the loop mutating only the copy, and return the final heap together
with `y[0]`. -/
def eval_ops_sequence_heap (h : Heap) (ax : ℕ) (ops : List Triple) : Heap × ℚ :=
  let x := h.mem ax
  let p := heap_alloc h x
  let h2 := eval_ops_heap_go x.length p.1 p.2 0 ops
  (h2, (h2.mem p.2).getD 0 0)

lemma heap_write_other (h : Heap) (a b : ℕ) (v : List ℚ) (hne : b ≠ a) :
    (heap_write h a v).mem b = h.mem b := by
  simp [heap_write, hne]

lemma heap_write_self (h : Heap) (a : ℕ) (v : List ℚ) :
    (heap_write h a v).mem a = v := by
  simp [heap_write]

lemma eval_ops_heap_go_other (n : ℕ) (ops : List Triple) :
    ∀ (h : Heap) (ay idx b : ℕ), b ≠ ay →
      (eval_ops_heap_go n h ay idx ops).mem b = h.mem b := by
  induction ops with
  | nil => intro h ay idx b hb; rfl
  | cons op rest ih =>
      intro h ay idx b hb
      simp only [eval_ops_heap_go]
      rw [ih _ _ _ _ hb, heap_write_other _ _ _ _ hb, heap_write_other _ _ _ _ hb]

lemma eval_ops_heap_go_next (n : ℕ) (ops : List Triple) :
    ∀ (h : Heap) (ay idx : ℕ),
      (eval_ops_heap_go n h ay idx ops).next = h.next := by
  induction ops with
  | nil => intro h ay idx; rfl
  | cons op rest ih =>
      intro h ay idx
      simp only [eval_ops_heap_go]
      rw [ih]
      rfl

lemma eval_ops_heap_go_self (n : ℕ) (ops : List Triple) :
    ∀ (h : Heap) (ay idx : ℕ),
      (eval_ops_heap_go n h ay idx ops).mem ay = eval_ops_go n (h.mem ay) idx ops := by
  induction ops with
  | nil => intro h ay idx; rfl
  | cons op rest ih =>
      intro h ay idx
      simp only [eval_ops_heap_go, eval_ops_go]
      rw [ih]
      congr 1
      rw [heap_write_self, heap_write_self, array_step]

/-! ### Non-negativity -/

lemma getD_nonneg {y : List ℚ} (hy : ∀ v ∈ y, 0 ≤ v) (m : ℕ) : 0 ≤ y.getD m 0 := by
  rw [List.getD_eq_getElem?_getD]
  cases hm : y[m]? with
  | none => simp
  | some v =>
      have hv : v ∈ y := by
        have := List.getElem?_eq_some_iff.mp hm
        obtain ⟨hlt, he⟩ := this
        exact he ▸ List.getElem_mem hlt
      simp only [Option.getD_some]
      exact hy v hv

lemma eval_one_op_nonneg (a b : ℚ) (o : Op) (ha : 0 ≤ a) (hb : 0 ≤ b) :
    0 ≤ eval_one_op a b o := by
  cases o with
  | add => simpa [eval_one_op] using add_nonneg ha hb
  | sub => simp only [eval_one_op]; exact abs_nonneg (a - b)
  | mul => simpa [eval_one_op] using mul_nonneg ha hb
  | div =>
      simp only [eval_one_op]
      split
      · exact div_nonneg ha hb
      · exact le_refl 0
  | rdiv =>
      simp only [eval_one_op]
      split
      · exact div_nonneg hb ha
      · exact le_refl 0

lemma eval_ops_go_nonneg (n : ℕ) (ops : List Triple) :
    ∀ (y : List ℚ) (idx : ℕ), (∀ v ∈ y, 0 ≤ v) →
      ∀ v ∈ eval_ops_go n y idx ops, 0 ≤ v := by
  induction ops with
  | nil => intro y idx hy; exact hy
  | cons op rest ih =>
      intro y idx hy
      simp only [eval_ops_go]
      apply ih
      have hset : ∀ v ∈ y.set op.i
          (eval_one_op (y.getD op.i 0) (y.getD op.j 0) op.o), 0 ≤ v := by
        intro v hv
        rcases List.mem_or_eq_of_mem_set hv with hv2 | hv2
        · exact hy v hv2
        · exact hv2 ▸ eval_one_op_nonneg _ _ _ (getD_nonneg hy _) (getD_nonneg hy _)
      intro v hv
      rw [array_step] at hv
      rcases List.mem_or_eq_of_mem_set hv with hv2 | hv2
      · exact hset v hv2
      · exact hv2 ▸ getD_nonneg hset _

/-! ### Claim theorems -/

/-- C1 (counterexample to the claim as stated): on the input array `[1, 0]`
with the valid reduction sequence `[(0, 1, '/')]`, the Sequence Evaluator
returns the division-by-zero fallback `0`, but the Expression Renderer's
output string `1/0` has no value under standard arithmetic (evaluating it
divides by zero), so the two sides are not equal within any tolerance. -/
theorem C1_counterexample :
    eval_ops_sequence [1, 0] [⟨0, 1, Op.div⟩] = 0 ∧
    str_ops_sequence [1, 0] [⟨0, 1, Op.div⟩] =
      some [Tok.num 1, Tok.div, Tok.num 0] ∧
    eval_toks [Tok.num 1, Tok.div, Tok.num 0] = none := by
  with_unfolding_all decide

/-- C1 (amended): for every nonempty input array and every valid reduction
sequence in which no division by zero occurs during evaluation, the
Expression Renderer succeeds and its output string, evaluated under
standard arithmetic operator precedence, yields exactly the Sequence
Evaluator's output (exact rational equality, hence within the stated
floating-point tolerance). -/
theorem C1_round_trip_amended {x : List ℚ} {ops : List Triple}
    (hx : 1 ≤ x.length) (hv : valid_ops x.length ops)
    (hdz : no_div_zero x ops = true) :
    ∃ s, str_ops_sequence x ops = some s ∧
      eval_toks s = some (eval_ops_sequence x ops) :=
  round_trip_aux hx hv hdz

/-- C1 witness: the amended round trip at the concrete input `[1, 2, 3]`
with the sequence `[(0, 1, '+'), (0, 1, '*')]` (renders `(1+2)*3 = 9`). -/
theorem C1_round_trip_amended_witness :
    ∃ s, str_ops_sequence [1, 2, 3] [⟨0, 1, Op.add⟩, ⟨0, 1, Op.mul⟩] = some s ∧
      eval_toks s =
        some (eval_ops_sequence [1, 2, 3] [⟨0, 1, Op.add⟩, ⟨0, 1, Op.mul⟩]) :=
  C1_round_trip_amended (by decide) (by decide) (by with_unfolding_all decide)

/-- C2: semantics of the Operation-Pair Evaluator on non-negative operands:
`a+b` for ADD, `|a-b|` for ABSDIFF, `a*b` for MUL, `a/b` (or `0` for a zero
divisor) for DIV, and `b/a` (or `0`) for RDIV. -/
theorem C2_operation_pair_semantics (a b : ℚ) (_ha : 0 ≤ a) (_hb : 0 ≤ b) :
    eval_one_op a b Op.add = a + b ∧
    eval_one_op a b Op.sub = |a - b| ∧
    eval_one_op a b Op.mul = a * b ∧
    (b ≠ 0 → eval_one_op a b Op.div = a / b) ∧
    (b = 0 → eval_one_op a b Op.div = 0) ∧
    (a ≠ 0 → eval_one_op a b Op.rdiv = b / a) ∧
    (a = 0 → eval_one_op a b Op.rdiv = 0) := by
  refine ⟨rfl, rfl, rfl, fun h => by simp [eval_one_op, h],
    fun h => by simp [eval_one_op, h], fun h => by simp [eval_one_op, h],
    fun h => by simp [eval_one_op, h]⟩

/-- C2 witness: the operator table evaluated at `a = 3`, `b = 2`. -/
theorem C2_operation_pair_semantics_witness :
    eval_one_op 3 2 Op.add = 3 + 2 ∧
    eval_one_op 3 2 Op.sub = |(3 : ℚ) - 2| ∧
    eval_one_op 3 2 Op.mul = 3 * 2 ∧
    ((2 : ℚ) ≠ 0 → eval_one_op 3 2 Op.div = 3 / 2) ∧
    ((2 : ℚ) = 0 → eval_one_op 3 2 Op.div = 0) ∧
    ((3 : ℚ) ≠ 0 → eval_one_op 3 2 Op.rdiv = 2 / 3) ∧
    ((3 : ℚ) = 0 → eval_one_op 3 2 Op.rdiv = 0) :=
  C2_operation_pair_semantics 3 2 (by with_unfolding_all decide)
    (by with_unfolding_all decide)

/-- C3 (counterexample to the claim as stated): with collect-all requested
on `[5, 1, 0]`, target `5`, tolerance `0`, qualifying candidates exist but
the search raises (`none`) instead of returning them: rendering the
qualifying candidate `[(1, 2, '/'), (0, 1, '-')]` evaluates the
subexpression string `1/0` and dies with a `ZeroDivisionError`. -/
theorem C3_counterexample :
    find_best_estimates [5, 1, 0] 5 0 true = none ∧
    qualifying [5, 1, 0] 5 0 ≠ [] := by
  with_unfolding_all decide

/-- C3 (amended): whenever `find_best_estimates` completes without raising,
the collect-all flag has the claimed semantics: with `collect_all = false`
the result holds at most one string, namely the rendering of the first
qualifying candidate in enumeration order (empty exactly when no candidate
qualifies); with `collect_all = true` the result is precisely the
renderings of all qualifying candidates, in enumeration order. -/
theorem C3_collect_all_amended (x : List ℚ) (t ε : ℚ) :
    (∀ out, find_best_estimates x t ε false = some out →
      out.length ≤ 1 ∧
        ((out = [] ∧ qualifying x t ε = []) ∨
          (∃ q s, (qualifying x t ε).head? = some q ∧
            str_ops_sequence x q = some s ∧ out = [s]))) ∧
    (∀ out, find_best_estimates x t ε true = some out →
      (qualifying x t ε).mapM (str_ops_sequence x) = some out) := by
  constructor
  · intro out h
    have h2 := search_go_false_spec x t ε (enumerated_candidates x) (-1) [] out h
    rcases h2 with ⟨rfl, hf⟩ | ⟨q, s, hh, hs, rfl⟩
    · exact ⟨by simp, Or.inl ⟨rfl, hf⟩⟩
    · exact ⟨by simp, Or.inr ⟨q, s, hh, hs, by simp⟩⟩
  · intro out h
    obtain ⟨rs, hmap, rfl⟩ :=
      search_go_true_spec x t ε (enumerated_candidates x) (-1) [] out h
    simpa using hmap

/-- C3 witness: the collect-all characterisation at `[2, 2]`, target `4`,
tolerance `0`: exactly the two qualifying candidates are rendered. -/
theorem C3_collect_all_amended_witness :
    (qualifying [2, 2] 4 0).mapM (str_ops_sequence [2, 2]) =
      some [[Tok.num 2, Tok.add, Tok.num 2], [Tok.num 2, Tok.mul, Tok.num 2]] :=
  (C3_collect_all_amended [2, 2] 4 0).2
    [[Tok.num 2, Tok.add, Tok.num 2], [Tok.num 2, Tok.mul, Tok.num 2]]
    (by with_unfolding_all decide)

/-- C4: the number of candidate sequences enumerated by the search driver
(`itertools.product` over the per-depth triple sets) equals
`∏ k ∈ [2..n], C(k,2) * 5` for `n` input numbers; in particular `2250`
for `n = 4`. -/
theorem C4_enumeration_size :
    (∀ x : List ℚ, (enumerated_candidates x).length =
      ∏ k ∈ Finset.Icc 2 x.length, (Nat.choose k 2 * 5)) ∧
    (∀ x : List ℚ, x.length = 4 → (enumerated_candidates x).length = 2250) := by
  have hmain : ∀ x : List ℚ, (enumerated_candidates x).length =
      ∏ k ∈ Finset.Icc 2 x.length, (Nat.choose k 2 * 5) :=
    fun x => enumerated_length x.length
  refine ⟨hmain, fun x h4 => ?_⟩
  rw [hmain x, h4]
  decide

/-- C4 witness: the enumeration size at the concrete 4-element input
`[1, 3, 4, 6]` is `30 * 15 * 5 = 2250`. -/
theorem C4_enumeration_size_witness :
    (enumerated_candidates [1, 3, 4, 6]).length = 2250 :=
  C4_enumeration_size.2 [1, 3, 4, 6] (by decide)

/-- C5: the Reduction-Step Generator is complete and deterministically
ordered: the depth-`k` triple set contains exactly the `(i, j, o)` with
`i < j < k` (`o` over all five tags), has size `C(k,2) * 5`, equals the
row-major-by-`i`-then-`j`-then-operator-order listing, and the set built
by `all_ops_sequence n` at position `pos` is the one for depth `n - pos`. -/
theorem C5_reduction_step_generator :
    (∀ (k : ℕ) (tr : Triple), tr ∈ depth_triples k ↔ (tr.i < tr.j ∧ tr.j < k)) ∧
    (∀ k : ℕ, (depth_triples k).length = Nat.choose k 2 * 5) ∧
    (∀ k : ℕ, depth_triples k = row_major_triples k) ∧
    (∀ n pos : ℕ, pos < n - 1 →
      (all_ops_sequence n).getD pos [] = depth_triples (n - pos)) :=
  ⟨depth_triples_mem, depth_triples_length, depth_triples_eq_row_major,
    all_ops_sequence_getD⟩

/-- C5 witness: position `1` of `all_ops_sequence 4` is the depth-3 set,
and `(0, 1, '+')` is one of its `C(3,2) * 5 = 15` triples. -/
theorem C5_reduction_step_generator_witness :
    (all_ops_sequence 4).getD 1 [] = depth_triples (4 - 1) ∧
    ((⟨0, 1, Op.add⟩ : Triple) ∈ depth_triples 3 ↔
      ((⟨0, 1, Op.add⟩ : Triple).i < (⟨0, 1, Op.add⟩ : Triple).j ∧
        (⟨0, 1, Op.add⟩ : Triple).j < 3)) :=
  ⟨C5_reduction_step_generator.2.2.2 4 1 (by decide),
    C5_reduction_step_generator.1 3 ⟨0, 1, Op.add⟩⟩

/-- C6: the Sequence Evaluator does not mutate its input: run through a
heap, the caller's array at `ax` is unchanged, the returned value is the
pure function of the array's contents, and a second call on the resulting
heap with the same arguments returns the same value. -/
theorem C6_no_mutation (h : Heap) (ax : ℕ) (ops : List Triple)
    (hax : ax < h.next) :
    (eval_ops_sequence_heap h ax ops).1.mem ax = h.mem ax ∧
    (eval_ops_sequence_heap h ax ops).2 = eval_ops_sequence (h.mem ax) ops ∧
    (eval_ops_sequence_heap (eval_ops_sequence_heap h ax ops).1 ax ops).2 =
      (eval_ops_sequence_heap h ax ops).2 := by
  have hne : ax ≠ h.next := by omega
  have halloc_other : (heap_alloc h (h.mem ax)).1.mem ax = h.mem ax := by
    simp [heap_alloc, hne]
  have hfst : (eval_ops_sequence_heap h ax ops).1 =
      eval_ops_heap_go (h.mem ax).length (heap_alloc h (h.mem ax)).1 h.next 0 ops := rfl
  have hmem : (eval_ops_sequence_heap h ax ops).1.mem ax = h.mem ax := by
    rw [hfst, eval_ops_heap_go_other _ _ _ _ _ _ hne, halloc_other]
  have hval : ∀ (g : Heap) (b : ℕ), b < g.next →
      (eval_ops_sequence_heap g b ops).2 = eval_ops_sequence (g.mem b) ops := by
    intro g b hb
    show ((eval_ops_heap_go (g.mem b).length (heap_alloc g (g.mem b)).1 g.next 0
        ops).mem g.next).getD 0 0 = _
    rw [eval_ops_heap_go_self]
    have hself : (heap_alloc g (g.mem b)).1.mem g.next = g.mem b := by
      simp [heap_alloc]
    rw [hself]
    rfl
  refine ⟨hmem, hval h ax hax, ?_⟩
  have hnext2 : (eval_ops_sequence_heap h ax ops).1.next = h.next + 1 := by
    rw [hfst, eval_ops_heap_go_next]
    rfl
  rw [hval _ _ (by omega), hval h ax hax, hmem]

/-- The heap used by the C6 witness: one allocated array `[2, 3]`. -/
def demo_heap : Heap := ⟨fun a => if a = 0 then [2, 3] else [], 1⟩

/-- C6 witness: the frame property at the concrete heap holding `[2, 3]`
at address `0` with the sequence `[(0, 1, '+')]`. -/
theorem C6_no_mutation_witness :
    (eval_ops_sequence_heap demo_heap 0 [⟨0, 1, Op.add⟩]).1.mem 0 =
      demo_heap.mem 0 ∧
    (eval_ops_sequence_heap demo_heap 0 [⟨0, 1, Op.add⟩]).2 =
      eval_ops_sequence (demo_heap.mem 0) [⟨0, 1, Op.add⟩] ∧
    (eval_ops_sequence_heap (eval_ops_sequence_heap demo_heap 0 [⟨0, 1, Op.add⟩]).1
        0 [⟨0, 1, Op.add⟩]).2 =
      (eval_ops_sequence_heap demo_heap 0 [⟨0, 1, Op.add⟩]).2 :=
  C6_no_mutation demo_heap 0 [⟨0, 1, Op.add⟩] (by decide)

/-- C7 (code bug): on `[5, 1, 0]` with target `11/2` and tolerance `0`, no
enumerated candidate qualifies, yet the search does not return an empty
solution list: it raises a `ZeroDivisionError` (modelled `none`) while
rendering an improving candidate whose subexpression string is `1/0`. -/
theorem C7_no_match_crash :
    qualifying [5, 1, 0] (11/2) 0 = [] ∧
    find_best_estimates [5, 1, 0] (11/2) 0 false = none := by
  with_unfolding_all decide

/-- C8: the two-twos search `search([2,2], 5, ε=0, collect_all=true)`
returns the empty solution list, and the five enumerated candidates
evaluate exactly to `4, 0, 4, 1, 1` — none equal to `5`. -/
theorem C8_two_twos :
    find_best_estimates [2, 2] 5 0 true = some [] ∧
    (enumerated_candidates [2, 2]).map (fun ops => eval_ops_sequence [2, 2] ops) =
      [4, 0, 4, 1, 1] := by
  with_unfolding_all decide

/-- C9 (code bug): a zero divisor is suppressed inside `eval_one_op`
(`1/0` evaluates to the fallback `0`), but during rendering the `'-'`
branch of `str_one_op` evaluates operand strings, and a rendered `1/0`
subexpression makes that evaluation raise: `str_ops_sequence` on
`[(1, 2, '/'), (0, 1, '-')]` raises, and the full search on `[5, 1, 0]`
with target `5`, tolerance `0`, collect-all dies instead of completing. -/
theorem C9_div_zero_raises :
    eval_one_op 1 0 Op.div = 0 ∧
    str_ops_sequence [5, 1, 0] [⟨1, 2, Op.div⟩, ⟨0, 1, Op.sub⟩] = none ∧
    find_best_estimates [5, 1, 0] 5 0 true = none := by
  with_unfolding_all decide

/-- C10: non-negativity invariant: `eval_one_op` maps non-negative operands
to a non-negative result; consequently every working-array entry during a
reduction and every final estimate is non-negative, so a real estimate
never satisfies the driver's sentinel test `best_est < 0` and never equals
the initial sentinel `-1`. -/
theorem C10_nonneg :
    (∀ (a b : ℚ) (o : Op), 0 ≤ a → 0 ≤ b → 0 ≤ eval_one_op a b o) ∧
    (∀ (n : ℕ) (ops : List Triple) (y : List ℚ) (idx : ℕ),
      (∀ v ∈ y, 0 ≤ v) → ∀ v ∈ eval_ops_go n y idx ops, 0 ≤ v) ∧
    (∀ (x : List ℚ) (ops : List Triple), (∀ v ∈ x, 0 ≤ v) →
      0 ≤ eval_ops_sequence x ops ∧ ¬ eval_ops_sequence x ops < 0 ∧
        eval_ops_sequence x ops ≠ -1) := by
  refine ⟨fun a b o ha hb => eval_one_op_nonneg a b o ha hb,
    fun n ops y idx hy => eval_ops_go_nonneg n ops y idx hy,
    fun x ops hx => ?_⟩
  have h1 : 0 ≤ eval_ops_sequence x ops := by
    rw [eval_ops_sequence]
    exact getD_nonneg (eval_ops_go_nonneg _ _ _ _ hx) 0
  refine ⟨h1, by linarith, ?_⟩
  intro he
  rw [he] at h1
  norm_num at h1

/-- C10 witness: non-negativity at the concrete operands `2, 3` with DIV
and the concrete reduction `[2, 3] → 2*3`. -/
theorem C10_nonneg_witness :
    0 ≤ eval_one_op 2 3 Op.div ∧
    (0 ≤ eval_ops_sequence [2, 3] [⟨0, 1, Op.mul⟩] ∧
      ¬ eval_ops_sequence [2, 3] [⟨0, 1, Op.mul⟩] < 0 ∧
      eval_ops_sequence [2, 3] [⟨0, 1, Op.mul⟩] ≠ -1) :=
  ⟨C10_nonneg.1 2 3 Op.div (by with_unfolding_all decide)
      (by with_unfolding_all decide),
    C10_nonneg.2.2 [2, 3] [⟨0, 1, Op.mul⟩] (by
      intro v hv
      simp only [List.mem_cons, List.not_mem_nil, or_false] at hv
      rcases hv with rfl | rfl <;> with_unfolding_all decide)⟩
